import Mathlib

/-!
Shallow embedding of the geometry and display logic of `protractor.py`
(a PyQt screen-protractor overlay), together with proofs of the claims
about it.  Python `float` arithmetic is modelled over `ℝ`; `math.atan2`
is modelled as the argument of a complex number, which has the same
defining properties (range `(-π, π]`, `atan2 0 0 = 0`, quadrant-correct
signed angle).
-/

open Real

/-- Model of `math.atan2 y x`: the argument of the complex number `x + y*I`.
It lies in `(-π, π]` and `atan2 0 0 = 0`, matching the Python function on
exact arithmetic. -/
noncomputable def atan2 (y x : ℝ) : ℝ := Complex.arg ⟨x, y⟩

/-- Model of `QPoint`: a point with integer coordinates (Qt's `QPoint` is
integer-valued; handle positions `Handle.pos()` are `QPoint`s). -/
@[ext]
structure QPoint where
  x : ℤ
  y : ℤ
deriving DecidableEq

instance : Add QPoint := ⟨fun a b => ⟨a.x + b.x, a.y + b.y⟩⟩
instance : Sub QPoint := ⟨fun a b => ⟨a.x - b.x, a.y - b.y⟩⟩

/-- Model of `QPointF`: a point with real (Python float) coordinates. -/
@[ext]
structure QPointF where
  x : ℝ
  y : ℝ

noncomputable instance : Add QPointF := ⟨fun a b => ⟨a.x + b.x, a.y + b.y⟩⟩
noncomputable instance : Sub QPointF := ⟨fun a b => ⟨a.x - b.x, a.y - b.y⟩⟩

noncomputable instance : HMul QPointF ℝ QPointF := ⟨fun p s => ⟨p.x * s, p.y * s⟩⟩

noncomputable instance : HDiv QPointF ℝ QPointF := ⟨fun p s => ⟨p.x / s, p.y / s⟩⟩

/-- Model of `QPointF.dotProduct` (used in `drawShortenedLine`, line 44). -/
noncomputable def QPointF.dotProduct (a b : QPointF) : ℝ := a.x * b.x + a.y * b.y

/-- Embedding of `threePointAngle` (protractor.py lines 32-37): the signed
angle at `center` between the rays towards `p1` and `p2`, computed as
`atan2(det, dot)` of the difference vectors `d1 = p1 - center`,
`d2 = p2 - center`. -/
noncomputable def threePointAngle (p1 center p2 : QPoint) : ℝ :=
  let d1 := p1 - center
  let d2 := p2 - center
  let dt := d1.x * d2.x + d1.y * d2.y
  let det := d1.x * d2.y - d1.y * d2.x
  atan2 (det : ℝ) (dt : ℝ)

/-- The same function applied to `QPointF` arguments (the Python function is
duck-typed and works on both `QPoint` and `QPointF`); used to relate the
angle of the handles' top-left positions to the angle of their centers. -/
noncomputable def threePointAngleF (p1 center p2 : QPointF) : ℝ :=
  let d1 := p1 - center
  let d2 := p2 - center
  let dt := d1.x * d2.x + d1.y * d2.y
  let det := d1.x * d2.y - d1.y * d2.x
  atan2 det dt

/-- Geometry of a `QWidget`: integer top-left position and size, as returned
by `x()`, `y()`, `width()`, `height()`. -/
structure QWidgetGeom where
  x : ℤ
  y : ℤ
  width : ℤ
  height : ℤ
deriving DecidableEq

/-- The widget's top-left position `pos()` as a `QPoint`. -/
def QWidgetGeom.pos (w : QWidgetGeom) : QPoint := ⟨w.x, w.y⟩

/-- Embedding of `centerPoint` (lines 39-40):
`QPointF(w.x() + w.width() / 2, w.y() + w.height() / 2)` with float
division. -/
noncomputable def centerPoint (w : QWidgetGeom) : QPointF :=
  ⟨(w.x : ℝ) + (w.width : ℝ) / 2, (w.y : ℝ) + (w.height : ℝ) / 2⟩

/-- The segment length computed in `drawShortenedLine` (line 44):
`math.sqrt(QPointF.dotProduct(diff, diff))` for `diff = p2 - p1`. -/
noncomputable def segmentLength (p1 p2 : QPointF) : ℝ :=
  Real.sqrt (QPointF.dotProduct (p2 - p1) (p2 - p1))

/-- Embedding of `drawShortenedLine` (lines 42-49).  The painter side effect
is modelled by the return value: `none` when the early `return` is taken and
nothing is drawn, `some (q1, q2)` when `qPainter.drawLine(q1, q2)` is
reached. -/
noncomputable def drawShortenedLine (p1 p2 : QPointF) (shorten1 shorten2 : ℝ) :
    Option (QPointF × QPointF) :=
  let diff := p2 - p1
  let length := segmentLength p1 p2
  if length = 0 ∨ shorten1 + shorten2 ≥ length then none
  else
    let q2 := p1 + diff * (1 - max 0 (min 1 (shorten2 / length)))
    let q1 := p1 + diff * (max 0 (min 1 (shorten1 / length)))
    some (q1, q2)

/-- The divisor `count = max(1, min(countX, countY))` computed in
`pointsOnLine` (lines 55-57), with `countX = ceil(|p1.x - p2.x| / maxDistance)`
and `countY = ceil(|p1.y - p2.y| / maxDistance)`. -/
noncomputable def pointsCount (p1 p2 : QPointF) (maxDistance : ℝ) : ℤ :=
  max 1 (min ⌈|p1.x - p2.x| / maxDistance⌉ ⌈|p1.y - p2.y| / maxDistance⌉)

/-- Embedding of `pointsOnLine` (lines 53-59):
`[ p1 + segment * i for i in range(count) ] + [ p2 ]` with
`segment = (p2 - p1) / count`. -/
noncomputable def pointsOnLine (p1 p2 : QPointF) (maxDistance : ℝ) : List QPointF :=
  let diff := p2 - p1
  let count := pointsCount p1 p2 maxDistance
  let segment := diff / (count : ℝ)
  ((List.range count.toNat).map fun i : ℕ => p1 + segment * (i : ℝ)) ++ [p2]

/-- Model of `QRectF`, stored by its four edges (left, top, right, bottom).
`QRectF(topLeft, bottomRight)` sets the edges directly from the two points
and may be non-normalized. -/
@[ext]
structure QRectF where
  left : ℝ
  top : ℝ
  right : ℝ
  bottom : ℝ

/-- The `QRectF(QPointF, QPointF)` constructor used in `rectsOnLine`
(line 64). -/
noncomputable def QRectF.fromPoints (topLeft bottomRight : QPointF) : QRectF :=
  ⟨topLeft.x, topLeft.y, bottomRight.x, bottomRight.y⟩

/-- `QRectF.normalized()`: swaps left/right when the width is negative and
top/bottom when the height is negative, yielding well-ordered edges. -/
noncomputable def QRectF.normalized (r : QRectF) : QRectF :=
  ⟨min r.left r.right, min r.top r.bottom, max r.left r.right, max r.top r.bottom⟩

/-- `QRectF.adjusted(dx1, dy1, dx2, dy2)`: adds the offsets to the four
edges. -/
noncomputable def QRectF.adjusted (r : QRectF) (dx1 dy1 dx2 dy2 : ℝ) : QRectF :=
  ⟨r.left + dx1, r.top + dy1, r.right + dx2, r.bottom + dy2⟩

/-- Point-in-rectangle, edges included (the point set covered by the
rectangle). -/
def QRectF.containsPoint (r : QRectF) (q : QPointF) : Prop :=
  r.left ≤ q.x ∧ q.x ≤ r.right ∧ r.top ≤ q.y ∧ q.y ≤ r.bottom

/-- Embedding of `rectsOnLine` (lines 61-64): one normalized rectangle per
consecutive point pair (`zip(points[1:], points[:-1])`), each expanded
outward by `overlap/2` on all four sides. -/
noncomputable def rectsOnLine (p1 p2 : QPointF) (maxDistance overlap : ℝ) :
    List QRectF :=
  let points := pointsOnLine p1 p2 maxDistance
  let pairs := (points.drop 1).zip points.dropLast
  pairs.map fun pr =>
    ((QRectF.fromPoints pr.1 pr.2).normalized).adjusted
      (-(overlap / 2)) (-(overlap / 2)) (overlap / 2) (overlap / 2)

/-- Embedding of the angle computation of `Protractor.updateDisplay`
(lines 157-162): the raw angle of the three handle positions is converted
to degrees, optionally inverted (`180 - angleDeg` when `angleInvert`), and
wrapped by `-360` when the result exceeds `180`.  The returned real number
is the value formatted into the label. -/
noncomputable def displayedAngle (arm1 center arm2 : QPoint) (angleInvert : Bool) : ℝ :=
  let angle := threePointAngle arm1 center arm2
  let angleDeg := 180 * angle / Real.pi
  let angleDeg2 := if angleInvert then 180 - angleDeg else angleDeg
  if angleDeg2 > 180 then angleDeg2 - 360 else angleDeg2

/-- Default position of the center handle `handleC` (line 123). -/
def defaultHandleC : QPoint := ⟨50, 200⟩

/-- Default position of the arm handle `handle1` (line 124). -/
def defaultHandle1 : QPoint := ⟨200, 200⟩

/-- Default position of the arm handle `handle2` (line 125). -/
def defaultHandle2 : QPoint := ⟨200, 50⟩

/-! ## Basic facts about the embedded operations -/

@[simp] theorem QPoint.x_add (a b : QPoint) : (a + b).x = a.x + b.x := rfl

@[simp] theorem QPoint.y_add (a b : QPoint) : (a + b).y = a.y + b.y := rfl

@[simp] theorem QPoint.x_sub (a b : QPoint) : (a - b).x = a.x - b.x := rfl

@[simp] theorem QPoint.y_sub (a b : QPoint) : (a - b).y = a.y - b.y := rfl

@[simp] theorem QPointF.add_x (a b : QPointF) : (a + b).x = a.x + b.x := rfl

@[simp] theorem QPointF.add_y (a b : QPointF) : (a + b).y = a.y + b.y := rfl

@[simp] theorem QPointF.sub_x (a b : QPointF) : (a - b).x = a.x - b.x := rfl

@[simp] theorem QPointF.sub_y (a b : QPointF) : (a - b).y = a.y - b.y := rfl

@[simp] theorem QPointF.mul_x (a : QPointF) (s : ℝ) : (a * s).x = a.x * s := rfl

@[simp] theorem QPointF.mul_y (a : QPointF) (s : ℝ) : (a * s).y = a.y * s := rfl

@[simp] theorem QPointF.div_x (a : QPointF) (s : ℝ) : (a / s).x = a.x / s := rfl

@[simp] theorem QPointF.div_y (a : QPointF) (s : ℝ) : (a / s).y = a.y / s := rfl

theorem atan2_mem_Ioc (y x : ℝ) : atan2 y x ∈ Set.Ioc (-Real.pi) Real.pi :=
  Complex.arg_mem_Ioc _

theorem atan2_zero_zero : atan2 0 0 = 0 := by
  have h : (⟨0, 0⟩ : ℂ) = 0 := by
    apply Complex.ext <;> simp
  rw [atan2, h, Complex.arg_zero]

theorem atan2_zero_of_nonneg {x : ℝ} (hx : 0 ≤ x) : atan2 0 x = 0 :=
  Complex.arg_eq_zero_iff.mpr ⟨hx, rfl⟩

theorem atan2_zero_of_neg {x : ℝ} (hx : x < 0) : atan2 0 x = Real.pi :=
  Complex.arg_eq_pi_iff.mpr ⟨hx, rfl⟩

theorem atan2_pos_zero {y : ℝ} (hy : 0 < y) : atan2 y 0 = Real.pi / 2 :=
  Complex.arg_eq_pi_div_two_iff.mpr ⟨rfl, hy⟩

theorem atan2_neg_y (y x : ℝ) :
    atan2 (-y) x = if atan2 y x = Real.pi then Real.pi else -atan2 y x := by
  have hconj : (⟨x, -y⟩ : ℂ) = starRingEnd ℂ ⟨x, y⟩ := by
    apply Complex.ext <;> simp
  rw [atan2, atan2, hconj, Complex.arg_conj]

theorem atan2_neg_self {a : ℝ} (ha : 0 < a) : atan2 (-a) a = -(Real.pi / 4) := by
  have h2 : Real.sqrt 2 * Real.sqrt 2 = 2 := Real.mul_self_sqrt (by norm_num)
  have habs : Complex.abs ⟨a, -a⟩ = a * Real.sqrt 2 := by
    rw [Complex.abs_apply, Complex.normSq_mk,
      show a * a + -a * -a = a * Real.sqrt 2 * (a * Real.sqrt 2) by
        linear_combination (-(a * a)) * h2]
    exact Real.sqrt_mul_self (by positivity)
  have harcsin : Real.arcsin (Real.sqrt 2 / 2) = Real.pi / 4 := by
    have hpi := Real.pi_pos
    have h := Real.arcsin_sin (x := Real.pi / 4) (by linarith) (by linarith)
    rwa [Real.sin_pi_div_four] at h
  have hre : (0 : ℝ) ≤ (⟨a, -a⟩ : ℂ).re := le_of_lt ha
  rw [atan2, Complex.arg_of_re_nonneg hre, habs]
  show Real.arcsin (-a / (a * Real.sqrt 2)) = -(Real.pi / 4)
  rw [show -a / (a * Real.sqrt 2) = -(Real.sqrt 2 / 2) by
      rw [div_eq_iff (by positivity : a * Real.sqrt 2 ≠ 0)]
      linear_combination (a / 2) * h2]
  rw [Real.arcsin_neg, harcsin]

theorem threePointAngle_eq (p1 c p2 : QPoint) :
    threePointAngle p1 c p2 =
      atan2 (((p1.x - c.x) * (p2.y - c.y) - (p1.y - c.y) * (p2.x - c.x) : ℤ) : ℝ)
        (((p1.x - c.x) * (p2.x - c.x) + (p1.y - c.y) * (p2.y - c.y) : ℤ) : ℝ) := rfl

theorem threePointAngle_val_east : threePointAngle ⟨1, 0⟩ ⟨0, 0⟩ ⟨-1, 0⟩ = Real.pi := by
  rw [threePointAngle_eq]
  norm_num
  exact atan2_zero_of_neg (by norm_num)

theorem threePointAngle_val_west : threePointAngle ⟨-1, 0⟩ ⟨0, 0⟩ ⟨1, 0⟩ = Real.pi := by
  rw [threePointAngle_eq]
  norm_num
  exact atan2_zero_of_neg (by norm_num)

theorem defaultAngle_val :
    threePointAngle defaultHandle1 defaultHandleC defaultHandle2 = -(Real.pi / 4) := by
  rw [defaultHandle1, defaultHandleC, defaultHandle2, threePointAngle_eq]
  norm_num
  exact atan2_neg_self (by norm_num)

/-! ## Claim theorems -/

/-- C1: `threePointAngle(p1, center, p2)` equals
`atan2(cross(d1,d2), dot(d1,d2))` for `d1 = p1 - center`, `d2 = p2 - center`,
the result always lies in `(-π, π]`, and when `p1` or `p2` coincides with
`center` the result is `0` (no error). -/
theorem threePointAngle_correct (p1 c p2 : QPoint) :
    threePointAngle p1 c p2 =
      atan2 (((p1 - c).x * (p2 - c).y - (p1 - c).y * (p2 - c).x : ℤ) : ℝ)
        (((p1 - c).x * (p2 - c).x + (p1 - c).y * (p2 - c).y : ℤ) : ℝ)
    ∧ threePointAngle p1 c p2 ∈ Set.Ioc (-Real.pi) Real.pi
    ∧ ((p1 = c ∨ p2 = c) → threePointAngle p1 c p2 = 0) := by
  refine ⟨rfl, atan2_mem_Ioc _ _, ?_⟩
  rintro (rfl | rfl) <;>
  · rw [threePointAngle_eq]
    norm_num [atan2_zero_zero]

/-- C1 witness: the degenerate case `p1 = center` evaluated at a concrete
input yields `0`. -/
theorem threePointAngle_correct_witness :
    threePointAngle ⟨3, 4⟩ ⟨3, 4⟩ ⟨7, 9⟩ = 0 :=
  (threePointAngle_correct ⟨3, 4⟩ ⟨3, 4⟩ ⟨7, 9⟩).2.2 (Or.inl rfl)

/-- C3 counterexample: with `p1 = (1,0)`, `center = (0,0)`, `p2 = (-1,0)`
(both distinct from the center), both orders give `atan2(0, -1) = π`, and
`π ≠ -π`, so antisymmetry fails at anti-parallel arms. -/
theorem threePointAngle_antisymm_cex :
    (⟨1, 0⟩ : QPoint) ≠ ⟨0, 0⟩ ∧ (⟨-1, 0⟩ : QPoint) ≠ ⟨0, 0⟩ ∧
      ¬ threePointAngle ⟨1, 0⟩ ⟨0, 0⟩ ⟨-1, 0⟩ =
          -threePointAngle ⟨-1, 0⟩ ⟨0, 0⟩ ⟨1, 0⟩ := by
  refine ⟨by decide, by decide, ?_⟩
  rw [threePointAngle_val_east, threePointAngle_val_west]
  intro h
  have := Real.pi_pos
  linarith

/-- C3 (amended): antisymmetry
`threePointAngle(p1, center, p2) = -threePointAngle(p2, center, p1)` holds
whenever the first angle is not exactly `π` (i.e. the two difference vectors
are not anti-parallel); at `π` both orders return `π`. -/
theorem threePointAngle_antisymm (p1 c p2 : QPoint)
    (h : threePointAngle p1 c p2 ≠ Real.pi) :
    threePointAngle p1 c p2 = -threePointAngle p2 c p1 := by
  have hswap : threePointAngle p2 c p1 =
      if threePointAngle p1 c p2 = Real.pi then Real.pi
      else -threePointAngle p1 c p2 := by
    rw [threePointAngle_eq p1 c p2, threePointAngle_eq p2 c p1]
    rw [show ((p2.x - c.x) * (p1.y - c.y) - (p2.y - c.y) * (p1.x - c.x) : ℤ) =
          -((p1.x - c.x) * (p2.y - c.y) - (p1.y - c.y) * (p2.x - c.x)) by ring,
        show ((p2.x - c.x) * (p1.x - c.x) + (p2.y - c.y) * (p1.y - c.y) : ℤ) =
          ((p1.x - c.x) * (p2.x - c.x) + (p1.y - c.y) * (p2.y - c.y)) by ring]
    rw [Int.cast_neg]
    exact atan2_neg_y _ _
  rw [hswap, if_neg h, neg_neg]

/-- C3 witness: antisymmetry at the concrete right-angle input `(1,0)`,
`(0,0)`, `(0,1)`, whose angle `π/2` is not `π`. -/
theorem threePointAngle_antisymm_witness :
    threePointAngle ⟨1, 0⟩ ⟨0, 0⟩ ⟨0, 1⟩ = -threePointAngle ⟨0, 1⟩ ⟨0, 0⟩ ⟨1, 0⟩ := by
  apply threePointAngle_antisymm
  rw [threePointAngle_eq]
  norm_num
  rw [atan2_pos_zero (by norm_num)]
  intro h
  have := Real.pi_pos
  linarith

/-- C8 counterexample: moving only the center handle by `(0,-1)` while the
arms stay at `(1,0)` and `(-1,0)` changes the computed angle from `π` to
`π/2`. -/
theorem center_move_cex :
    ¬ threePointAngle ⟨1, 0⟩ (QPoint.mk 0 0 + QPoint.mk 0 (-1)) ⟨-1, 0⟩ =
        threePointAngle ⟨1, 0⟩ ⟨0, 0⟩ ⟨-1, 0⟩ := by
  have hmoved : threePointAngle ⟨1, 0⟩ (QPoint.mk 0 0 + QPoint.mk 0 (-1)) ⟨-1, 0⟩ =
      Real.pi / 2 := by
    rw [threePointAngle_eq]
    norm_num
    exact atan2_pos_zero (by norm_num)
  rw [hmoved, threePointAngle_val_east]
  intro h
  have := Real.pi_pos
  linarith

/-- C8 (amended): translation invariance — moving all three handles by the
same offset `d` (as the whole-overlay drag does) leaves `threePointAngle`,
and hence the displayed angle, unchanged. -/
theorem threePointAngle_translation (p1 c p2 d : QPoint) :
    threePointAngle (p1 + d) (c + d) (p2 + d) = threePointAngle p1 c p2 := by
  rw [threePointAngle_eq, threePointAngle_eq]
  simp only [QPoint.x_add, QPoint.y_add]
  congr 2 <;> ring

/-- C9 counterexample: the angle computed from the default handle positions
`(200,200)`, `(50,200)`, `(200,50)` does not have absolute value `π/2`
(90 degrees): it is `-π/4`. -/
theorem defaultHandles_angle_cex :
    ¬ |threePointAngle defaultHandle1 defaultHandleC defaultHandle2| = Real.pi / 2 := by
  rw [defaultAngle_val, abs_neg, abs_of_nonneg (by positivity)]
  intro h
  have := Real.pi_pos
  linarith

/-- C9 (amended): at construction the three handles are placed at the fixed
default positions `handleC = (50,200)`, `handle1 = (200,200)`,
`handle2 = (200,50)`, and the angle computed from them is `-π/4`, i.e. the
arms form a 45-degree angle (displayed as -45.00°), not a right angle. -/
theorem defaultHandles_angle :
    threePointAngle defaultHandle1 defaultHandleC defaultHandle2 = -(Real.pi / 4) :=
  defaultAngle_val

theorem threePointAngle_mem_Ioc (p1 c p2 : QPoint) :
    threePointAngle p1 c p2 ∈ Set.Ioc (-Real.pi) Real.pi :=
  atan2_mem_Ioc _ _

theorem displayedAngle_def (p1 c p2 : QPoint) (inv : Bool) :
    displayedAngle p1 c p2 inv =
      if (if inv then 180 - 180 * threePointAngle p1 c p2 / Real.pi
          else 180 * threePointAngle p1 c p2 / Real.pi) > 180
      then (if inv then 180 - 180 * threePointAngle p1 c p2 / Real.pi
            else 180 * threePointAngle p1 c p2 / Real.pi) - 360
      else (if inv then 180 - 180 * threePointAngle p1 c p2 / Real.pi
            else 180 * threePointAngle p1 c p2 / Real.pi) := rfl

theorem threePointAngleF_eq (p1 c p2 : QPointF) :
    threePointAngleF p1 c p2 =
      atan2 ((p1.x - c.x) * (p2.y - c.y) - (p1.y - c.y) * (p2.x - c.x))
        ((p1.x - c.x) * (p2.x - c.x) + (p1.y - c.y) * (p2.y - c.y)) := rfl

@[simp] theorem centerPoint_x (w : QWidgetGeom) :
    (centerPoint w).x = (w.x : ℝ) + (w.width : ℝ) / 2 := rfl

@[simp] theorem centerPoint_y (w : QWidgetGeom) :
    (centerPoint w).y = (w.y : ℝ) + (w.height : ℝ) / 2 := rfl

@[simp] theorem QWidgetGeom.pos_x (w : QWidgetGeom) : w.pos.x = w.x := rfl

@[simp] theorem QWidgetGeom.pos_y (w : QWidgetGeom) : w.pos.y = w.y := rfl

/-- C2: the displayed angle value always lies in `(-180, 180]` degrees;
with `angleInvert` set and a raw angle of 90° the displayed value is 90;
and the straight-line configuration displays 180. -/
theorem displayedAngle_correct :
    (∀ (p1 c p2 : QPoint) (inv : Bool),
        displayedAngle p1 c p2 inv ∈ Set.Ioc (-(180 : ℝ)) 180)
    ∧ displayedAngle ⟨100, 0⟩ ⟨0, 0⟩ ⟨0, 100⟩ true = 90
    ∧ displayedAngle ⟨-100, 0⟩ ⟨0, 0⟩ ⟨100, 0⟩ false = 180 := by
  have hπ := Real.pi_pos
  refine ⟨?_, ?_, ?_⟩
  · intro p1 c p2 inv
    obtain ⟨hlo, hhi⟩ := threePointAngle_mem_Ioc p1 c p2
    have hDhi : 180 * threePointAngle p1 c p2 / Real.pi ≤ 180 := by
      rw [div_le_iff₀ hπ]; nlinarith
    have hDlo : -180 < 180 * threePointAngle p1 c p2 / Real.pi := by
      rw [lt_div_iff₀ hπ]; nlinarith
    cases inv with
    | false =>
      rw [displayedAngle_def]
      show (if 180 * threePointAngle p1 c p2 / Real.pi > 180
          then 180 * threePointAngle p1 c p2 / Real.pi - 360
          else 180 * threePointAngle p1 c p2 / Real.pi) ∈ Set.Ioc (-(180 : ℝ)) 180
      rw [if_neg (not_lt.mpr hDhi)]
      exact ⟨hDlo, hDhi⟩
    | true =>
      rw [displayedAngle_def]
      show (if 180 - 180 * threePointAngle p1 c p2 / Real.pi > 180
          then 180 - 180 * threePointAngle p1 c p2 / Real.pi - 360
          else 180 - 180 * threePointAngle p1 c p2 / Real.pi) ∈ Set.Ioc (-(180 : ℝ)) 180
      by_cases hE : 180 - 180 * threePointAngle p1 c p2 / Real.pi > 180
      · rw [if_pos hE]
        constructor <;> linarith
      · rw [if_neg hE]
        push_neg at hE
        constructor <;> linarith
  · have hangle : threePointAngle ⟨100, 0⟩ ⟨0, 0⟩ ⟨0, 100⟩ = Real.pi / 2 := by
      rw [threePointAngle_eq]
      norm_num
      exact atan2_pos_zero (by norm_num)
    have hD : 180 * (Real.pi / 2) / Real.pi = 90 := by
      field_simp
      ring
    rw [displayedAngle_def, hangle, hD]
    norm_num
  · have hangle : threePointAngle ⟨-100, 0⟩ ⟨0, 0⟩ ⟨100, 0⟩ = Real.pi := by
      rw [threePointAngle_eq]
      norm_num
      exact atan2_zero_of_neg (by norm_num)
    have hD : 180 * Real.pi / Real.pi = 180 := by
      field_simp
    rw [displayedAngle_def, hangle, hD]
    norm_num

/-- C7: when the three handles have identical width and height (as they do:
all are 31 by 31), the angle computed by `updateDisplay` from the handles'
top-left positions equals the signed angle of the handles' center points,
because the common offset `(width/2, height/2)` cancels in the differences. -/
theorem updateDisplay_angle_eq_centers (w1 wC w2 : QWidgetGeom)
    (hw1 : w1.width = wC.width) (hh1 : w1.height = wC.height)
    (hw2 : w2.width = wC.width) (hh2 : w2.height = wC.height) :
    threePointAngleF (centerPoint w1) (centerPoint wC) (centerPoint w2) =
      threePointAngle w1.pos wC.pos w2.pos := by
  rw [threePointAngleF_eq, threePointAngle_eq]
  simp only [centerPoint_x, centerPoint_y, QWidgetGeom.pos_x, QWidgetGeom.pos_y]
  rw [hw1, hh1, hw2, hh2]
  congr 1 <;> push_cast <;> ring

/-- C7 witness: the identity evaluated at the three default 31-by-31
handles. -/
theorem updateDisplay_angle_eq_centers_witness :
    threePointAngleF (centerPoint ⟨200, 200, 31, 31⟩) (centerPoint ⟨50, 200, 31, 31⟩)
        (centerPoint ⟨200, 50, 31, 31⟩) =
      threePointAngle (QWidgetGeom.pos ⟨200, 200, 31, 31⟩)
        (QWidgetGeom.pos ⟨50, 200, 31, 31⟩) (QWidgetGeom.pos ⟨200, 50, 31, 31⟩) :=
  updateDisplay_angle_eq_centers _ _ _ rfl rfl rfl rfl

theorem segmentLength_nonneg (p1 p2 : QPointF) : 0 ≤ segmentLength p1 p2 :=
  Real.sqrt_nonneg _

theorem drawShortenedLine_def (p1 p2 : QPointF) (s1 s2 : ℝ) :
    drawShortenedLine p1 p2 s1 s2 =
      if segmentLength p1 p2 = 0 ∨ s1 + s2 ≥ segmentLength p1 p2 then none
      else some (p1 + (p2 - p1) * max 0 (min 1 (s1 / segmentLength p1 p2)),
        p1 + (p2 - p1) * (1 - max 0 (min 1 (s2 / segmentLength p1 p2)))) := rfl

/-- C4: with the segment length zero or `shorten1 + shorten2 >= length`,
`drawShortenedLine` draws nothing (no error); with both shortenings zero and
a nondegenerate segment, the drawn segment is exactly `(p1, p2)`. -/
theorem drawShortenedLine_correct (p1 p2 : QPointF) (shorten1 shorten2 : ℝ)
    (hs1 : 0 ≤ shorten1) (hs2 : 0 ≤ shorten2) :
    ((segmentLength p1 p2 = 0 ∨ shorten1 + shorten2 ≥ segmentLength p1 p2) →
      drawShortenedLine p1 p2 shorten1 shorten2 = none)
    ∧ (shorten1 = 0 → shorten2 = 0 → segmentLength p1 p2 ≠ 0 →
        drawShortenedLine p1 p2 shorten1 shorten2 = some (p1, p2)) := by
  constructor
  · intro h
    rw [drawShortenedLine_def, if_pos h]
  · intro h1 h2 hL
    subst h1
    subst h2
    have hLpos : 0 < segmentLength p1 p2 :=
      lt_of_le_of_ne (segmentLength_nonneg p1 p2) (Ne.symm hL)
    have hcond : ¬(segmentLength p1 p2 = 0 ∨ (0 : ℝ) + 0 ≥ segmentLength p1 p2) := by
      push_neg
      exact ⟨hL, by linarith⟩
    have hsc : max 0 (min 1 ((0 : ℝ) / segmentLength p1 p2)) = 0 := by norm_num
    rw [drawShortenedLine_def, if_neg hcond, hsc]
    apply congrArg some
    apply Prod.ext <;> apply QPointF.ext <;> simp

/-- C4 witness: the segment from (0,0) to (3,4) with no shortening is drawn
unchanged; its length is 5. -/
theorem drawShortenedLine_correct_witness :
    drawShortenedLine ⟨0, 0⟩ ⟨3, 4⟩ 0 0 = some (⟨0, 0⟩, ⟨3, 4⟩) := by
  have hd : QPointF.dotProduct ((⟨3, 4⟩ : QPointF) - ⟨0, 0⟩) ((⟨3, 4⟩ : QPointF) - ⟨0, 0⟩)
      = 25 := by
    simp [QPointF.dotProduct]
    norm_num
  have hL : segmentLength ⟨0, 0⟩ ⟨3, 4⟩ = 5 := by
    show Real.sqrt (QPointF.dotProduct ((⟨3, 4⟩ : QPointF) - ⟨0, 0⟩)
      ((⟨3, 4⟩ : QPointF) - ⟨0, 0⟩)) = 5
    rw [hd, show (25 : ℝ) = 5 ^ 2 by norm_num, Real.sqrt_sq (by norm_num : (0 : ℝ) ≤ 5)]
  exact (drawShortenedLine_correct ⟨0, 0⟩ ⟨3, 4⟩ 0 0 le_rfl le_rfl).2 rfl rfl
    (by rw [hL]; norm_num)

theorem one_le_pointsCount (p1 p2 : QPointF) (m : ℝ) : 1 ≤ pointsCount p1 p2 m :=
  le_max_left _ _

theorem pointsCount_toNat_pos (p1 p2 : QPointF) (m : ℝ) :
    1 ≤ (pointsCount p1 p2 m).toNat := by
  have := one_le_pointsCount p1 p2 m
  omega

theorem pointsCount_toNat_cast (p1 p2 : QPointF) (m : ℝ) :
    (((pointsCount p1 p2 m).toNat : ℕ) : ℝ) = ((pointsCount p1 p2 m : ℤ) : ℝ) := by
  rw [← Int.cast_natCast,
    Int.toNat_of_nonneg (le_trans zero_le_one (one_le_pointsCount p1 p2 m))]

theorem pointsCount_cast_pos (p1 p2 : QPointF) (m : ℝ) :
    (0 : ℝ) < ((pointsCount p1 p2 m : ℤ) : ℝ) := by
  have := one_le_pointsCount p1 p2 m
  exact_mod_cast lt_of_lt_of_le zero_lt_one (by exact_mod_cast this)

theorem pointsOnLine_def (p1 p2 : QPointF) (m : ℝ) :
    pointsOnLine p1 p2 m =
      ((List.range (pointsCount p1 p2 m).toNat).map
        fun i : ℕ => p1 + ((p2 - p1) / ((pointsCount p1 p2 m : ℤ) : ℝ)) * (i : ℝ)) ++ [p2] :=
  rfl

theorem pointsOnLine_last_pt (p1 p2 : QPointF) (m : ℝ) :
    p1 + ((p2 - p1) / ((pointsCount p1 p2 m : ℤ) : ℝ)) *
        (((pointsCount p1 p2 m).toNat : ℕ) : ℝ) = p2 := by
  have hc0 : ((pointsCount p1 p2 m : ℤ) : ℝ) ≠ 0 := ne_of_gt (pointsCount_cast_pos p1 p2 m)
  apply QPointF.ext <;>
  · simp only [QPointF.add_x, QPointF.add_y, QPointF.mul_x, QPointF.mul_y, QPointF.div_x,
      QPointF.div_y, QPointF.sub_x, QPointF.sub_y, pointsCount_toNat_cast]
    rw [div_mul_cancel₀ _ hc0]
    ring

theorem pointsOnLine_getElem (p1 p2 : QPointF) (m : ℝ) (i : ℕ)
    (hi : i ≤ (pointsCount p1 p2 m).toNat) :
    (pointsOnLine p1 p2 m)[i]? =
      some (p1 + ((p2 - p1) / ((pointsCount p1 p2 m : ℤ) : ℝ)) * (i : ℝ)) := by
  rcases lt_or_eq_of_le hi with h | h
  · rw [pointsOnLine_def, List.getElem?_append_left (by simpa using h), List.getElem?_map,
      List.getElem?_range h]
    rfl
  · subst h
    rw [pointsOnLine_def, List.getElem?_append_right (by simp)]
    simp only [List.length_map, List.length_range, Nat.sub_self]
    rw [show ([p2] : List QPointF)[0]? = some p2 from rfl]
    exact congrArg some (pointsOnLine_last_pt p1 p2 m).symm

/-- C5: `pointsOnLine` returns exactly `count + 1` evenly spaced points with
`count = max(1, min(ceil(|dx|/maxSpacing), ceil(|dy|/maxSpacing)))`; the list
has at least 2 elements, starts with `p1` and ends with `p2`; element `i` is
`p1 + (diff/count) * i`. -/
theorem pointsOnLine_correct (p1 p2 : QPointF) (m : ℝ) (hm : 0 < m) :
    (pointsOnLine p1 p2 m).length = (pointsCount p1 p2 m).toNat + 1
    ∧ 1 ≤ pointsCount p1 p2 m
    ∧ 2 ≤ (pointsOnLine p1 p2 m).length
    ∧ (pointsOnLine p1 p2 m)[0]? = some p1
    ∧ (pointsOnLine p1 p2 m).getLast? = some p2
    ∧ ∀ i : ℕ, i ≤ (pointsCount p1 p2 m).toNat →
        (pointsOnLine p1 p2 m)[i]? =
          some (p1 + ((p2 - p1) / ((pointsCount p1 p2 m : ℤ) : ℝ)) * (i : ℝ)) := by
  have hlen : (pointsOnLine p1 p2 m).length = (pointsCount p1 p2 m).toNat + 1 := by
    rw [pointsOnLine_def]
    simp
  refine ⟨hlen, one_le_pointsCount p1 p2 m, ?_, ?_, ?_,
    fun i hi => pointsOnLine_getElem p1 p2 m i hi⟩
  · rw [hlen]
    have := pointsCount_toNat_pos p1 p2 m
    omega
  · rw [pointsOnLine_getElem p1 p2 m 0 (Nat.zero_le _)]
    apply congrArg some
    apply QPointF.ext <;> simp
  · rw [pointsOnLine_def]
    exact List.getLast?_concat _

/-- C5 witness: evaluation at `p1 = (0,0)`, `p2 = (100,0)`, `maxSpacing = 40`. -/
theorem pointsOnLine_correct_witness :
    2 ≤ (pointsOnLine ⟨0, 0⟩ ⟨100, 0⟩ 40).length
    ∧ (pointsOnLine ⟨0, 0⟩ ⟨100, 0⟩ 40)[0]? = some ⟨0, 0⟩
    ∧ (pointsOnLine ⟨0, 0⟩ ⟨100, 0⟩ 40).getLast? = some ⟨100, 0⟩ :=
  ⟨(pointsOnLine_correct ⟨0, 0⟩ ⟨100, 0⟩ 40 (by norm_num)).2.2.1,
    (pointsOnLine_correct ⟨0, 0⟩ ⟨100, 0⟩ 40 (by norm_num)).2.2.2.1,
    (pointsOnLine_correct ⟨0, 0⟩ ⟨100, 0⟩ 40 (by norm_num)).2.2.2.2.1⟩

/-- C10: `pointsOnLine` is total for `maxSpacing > 0`: the divisor `count` is
at least 1 (so `diff / count` never divides by zero, even for axis-parallel
segments where one of the ceils is 0) and the function returns a non-empty
list. -/
theorem pointsOnLine_total (p1 p2 : QPointF) (m : ℝ) (hm : 0 < m) :
    1 ≤ pointsCount p1 p2 m
    ∧ ((pointsCount p1 p2 m : ℤ) : ℝ) ≠ 0
    ∧ pointsOnLine p1 p2 m ≠ [] :=
  ⟨one_le_pointsCount p1 p2 m, ne_of_gt (pointsCount_cast_pos p1 p2 m), by
    rw [pointsOnLine_def]
    simp⟩

/-- C10 witness: the horizontal segment from (0,0) to (100,0) with spacing 40
(here `ceil(|dy|/maxSpacing) = 0`, yet the divisor is still nonzero). -/
theorem pointsOnLine_total_witness :
    1 ≤ pointsCount ⟨0, 0⟩ ⟨100, 0⟩ 40
    ∧ ((pointsCount ⟨0, 0⟩ ⟨100, 0⟩ 40 : ℤ) : ℝ) ≠ 0
    ∧ pointsOnLine ⟨0, 0⟩ ⟨100, 0⟩ 40 ≠ [] :=
  pointsOnLine_total ⟨0, 0⟩ ⟨100, 0⟩ 40 (by norm_num)

@[simp] theorem QRectF.fromPoints_left (a b : QPointF) : (QRectF.fromPoints a b).left = a.x :=
  rfl

@[simp] theorem QRectF.fromPoints_top (a b : QPointF) : (QRectF.fromPoints a b).top = a.y :=
  rfl

@[simp] theorem QRectF.fromPoints_right (a b : QPointF) :
    (QRectF.fromPoints a b).right = b.x := rfl

@[simp] theorem QRectF.fromPoints_bottom (a b : QPointF) :
    (QRectF.fromPoints a b).bottom = b.y := rfl

@[simp] theorem QRectF.normalized_left (r : QRectF) :
    r.normalized.left = min r.left r.right := rfl

@[simp] theorem QRectF.normalized_top (r : QRectF) :
    r.normalized.top = min r.top r.bottom := rfl

@[simp] theorem QRectF.normalized_right (r : QRectF) :
    r.normalized.right = max r.left r.right := rfl

@[simp] theorem QRectF.normalized_bottom (r : QRectF) :
    r.normalized.bottom = max r.top r.bottom := rfl

@[simp] theorem QRectF.adjusted_left (r : QRectF) (a b c d : ℝ) :
    (r.adjusted a b c d).left = r.left + a := rfl

@[simp] theorem QRectF.adjusted_top (r : QRectF) (a b c d : ℝ) :
    (r.adjusted a b c d).top = r.top + b := rfl

@[simp] theorem QRectF.adjusted_right (r : QRectF) (a b c d : ℝ) :
    (r.adjusted a b c d).right = r.right + c := rfl

@[simp] theorem QRectF.adjusted_bottom (r : QRectF) (a b c d : ℝ) :
    (r.adjusted a b c d).bottom = r.bottom + d := rfl

theorem rectsOnLine_def (p1 p2 : QPointF) (m o : ℝ) :
    rectsOnLine p1 p2 m o =
      (((pointsOnLine p1 p2 m).drop 1).zip (pointsOnLine p1 p2 m).dropLast).map
        fun pr => ((QRectF.fromPoints pr.1 pr.2).normalized).adjusted
          (-(o / 2)) (-(o / 2)) (o / 2) (o / 2) := rfl

theorem rectsOnLine_getElem (p1 p2 : QPointF) (m o : ℝ) (j : ℕ)
    (hj : j < (pointsCount p1 p2 m).toNat) :
    (rectsOnLine p1 p2 m o)[j]? =
      some (((QRectF.fromPoints
          (p1 + ((p2 - p1) / ((pointsCount p1 p2 m : ℤ) : ℝ)) * (((j + 1 : ℕ) : ℕ) : ℝ))
          (p1 + ((p2 - p1) / ((pointsCount p1 p2 m : ℤ) : ℝ)) *
            ((j : ℕ) : ℝ))).normalized).adjusted
        (-(o / 2)) (-(o / 2)) (o / 2) (o / 2)) := by
  have hlen : (pointsOnLine p1 p2 m).length = (pointsCount p1 p2 m).toNat + 1 := by
    rw [pointsOnLine_def]
    simp
  have hdrop : ((pointsOnLine p1 p2 m).drop 1)[j]? =
      some (p1 + ((p2 - p1) / ((pointsCount p1 p2 m : ℤ) : ℝ)) * (((j + 1 : ℕ) : ℕ) : ℝ)) := by
    rw [List.getElem?_drop, show 1 + j = j + 1 from Nat.add_comm 1 j]
    exact pointsOnLine_getElem p1 p2 m (j + 1) (by omega)
  have hdl : ((pointsOnLine p1 p2 m).dropLast)[j]? =
      some (p1 + ((p2 - p1) / ((pointsCount p1 p2 m : ℤ) : ℝ)) * ((j : ℕ) : ℝ)) := by
    rw [List.getElem?_dropLast, hlen, if_pos (by omega)]
    exact pointsOnLine_getElem p1 p2 m j (by omega)
  have hzip : (((pointsOnLine p1 p2 m).drop 1).zip (pointsOnLine p1 p2 m).dropLast)[j]? =
      some (p1 + ((p2 - p1) / ((pointsCount p1 p2 m : ℤ) : ℝ)) * (((j + 1 : ℕ) : ℕ) : ℝ),
        p1 + ((p2 - p1) / ((pointsCount p1 p2 m : ℤ) : ℝ)) * ((j : ℕ) : ℝ)) :=
    List.getElem?_zip_eq_some.mpr ⟨hdrop, hdl⟩
  rw [rectsOnLine_def, List.getElem?_map, hzip]
  rfl

theorem between_box (px k u j1 : ℝ) (h1 : j1 ≤ u) (h2 : u ≤ j1 + 1) :
    min (px + k * (j1 + 1)) (px + k * j1) ≤ px + k * u ∧
      px + k * u ≤ max (px + k * (j1 + 1)) (px + k * j1) := by
  rcases le_total 0 k with hk | hk
  · constructor
    · exact le_trans (min_le_right _ _) (by nlinarith)
    · exact le_trans (by nlinarith) (le_max_left _ _)
  · constructor
    · exact le_trans (min_le_left _ _) (by nlinarith)
    · exact le_trans (by nlinarith) (le_max_right _ _)

theorem contains_of_between (qx sx a b e : ℝ) (he : 0 ≤ e) (hmin : min a b ≤ sx)
    (hmax : sx ≤ max a b) (hd : (qx - sx) ^ 2 ≤ e ^ 2) :
    min a b + -e ≤ qx ∧ qx ≤ max a b + e := by
  have h1 : qx - sx ≤ e := by nlinarith
  have h2 : -e ≤ qx - sx := by nlinarith
  constructor
  · linarith
  · linarith

theorem exists_subdiv_index (c : ℕ) (t : ℝ) (hc : 1 ≤ c) (ht0 : 0 ≤ t) (ht1 : t ≤ 1) :
    ∃ j : ℕ, j < c ∧ (j : ℝ) ≤ t * (c : ℝ) ∧ t * (c : ℝ) ≤ (j : ℝ) + 1 := by
  have hu0 : 0 ≤ t * (c : ℝ) := by positivity
  have huc : t * (c : ℝ) ≤ (c : ℝ) := by
    have : (0 : ℝ) ≤ (c : ℝ) := by positivity
    nlinarith
  by_cases h : ⌊t * (c : ℝ)⌋.toNat < c
  · refine ⟨⌊t * (c : ℝ)⌋.toNat, h, ?_, ?_⟩
    · rw [show ((⌊t * (c : ℝ)⌋.toNat : ℕ) : ℝ) = ((⌊t * (c : ℝ)⌋ : ℤ) : ℝ) by
        rw [← Int.cast_natCast, Int.toNat_of_nonneg (Int.floor_nonneg.mpr hu0)]]
      exact Int.floor_le _
    · rw [show ((⌊t * (c : ℝ)⌋.toNat : ℕ) : ℝ) = ((⌊t * (c : ℝ)⌋ : ℤ) : ℝ) by
        rw [← Int.cast_natCast, Int.toNat_of_nonneg (Int.floor_nonneg.mpr hu0)]]
      exact le_of_lt (Int.lt_floor_add_one _)
  · push_neg at h
    have hfl : (c : ℝ) ≤ t * (c : ℝ) := by
      have h1 : (c : ℤ) ≤ ⌊t * (c : ℝ)⌋ := by
        have := Int.toNat_of_nonneg (Int.floor_nonneg.mpr hu0)
        omega
      calc (c : ℝ) ≤ ((⌊t * (c : ℝ)⌋ : ℤ) : ℝ) := by exact_mod_cast h1
        _ ≤ t * (c : ℝ) := Int.floor_le _
    refine ⟨c - 1, by omega, ?_, ?_⟩
    · have : ((c - 1 : ℕ) : ℝ) = (c : ℝ) - 1 := by
        have : (1 : ℕ) ≤ c := hc
        push_cast [Nat.cast_sub this]
        ring
      rw [this]
      linarith
    · have : ((c - 1 : ℕ) : ℝ) = (c : ℝ) - 1 := by
        have : (1 : ℕ) ≤ c := hc
        push_cast [Nat.cast_sub this]
        ring
      rw [this]
      linarith

/-- C6: every point whose (squared) distance from the straight segment
`p1`-`p2` is at most `(overlap/2)^2` lies in one of the rectangles returned
by `rectsOnLine`; and rectangle `j` is exactly the normalized bounding box
of the consecutive point pair `(points[j+1], points[j])` expanded outward by
`overlap/2` on all four sides. -/
theorem rectsOnLine_correct (p1 p2 : QPointF) (m o : ℝ) (hm : 0 < m) (ho : 0 ≤ o) :
    (∀ (q : QPointF) (t : ℝ), 0 ≤ t → t ≤ 1 →
        (q.x - (p1.x + t * (p2.x - p1.x))) ^ 2 + (q.y - (p1.y + t * (p2.y - p1.y))) ^ 2
          ≤ (o / 2) ^ 2 →
        ∃ r ∈ rectsOnLine p1 p2 m o, r.containsPoint q)
    ∧ ∀ j : ℕ, j < (pointsCount p1 p2 m).toNat →
        (rectsOnLine p1 p2 m o)[j]? =
          some (((QRectF.fromPoints
              (p1 + ((p2 - p1) / ((pointsCount p1 p2 m : ℤ) : ℝ)) * (((j + 1 : ℕ) : ℕ) : ℝ))
              (p1 + ((p2 - p1) / ((pointsCount p1 p2 m : ℤ) : ℝ)) *
                ((j : ℕ) : ℝ))).normalized).adjusted
            (-(o / 2)) (-(o / 2)) (o / 2) (o / 2)) := by
  refine ⟨?_, fun j hj => rectsOnLine_getElem p1 p2 m o j hj⟩
  intro q t ht0 ht1 hq
  have hc1 : 1 ≤ (pointsCount p1 p2 m).toNat := pointsCount_toNat_pos p1 p2 m
  obtain ⟨j, hjc, hj1, hj2⟩ :=
    exists_subdiv_index (pointsCount p1 p2 m).toNat t hc1 ht0 ht1
  refine ⟨_, List.getElem?_mem (rectsOnLine_getElem p1 p2 m o j hjc), ?_⟩
  have hc0 : ((pointsCount p1 p2 m : ℤ) : ℝ) ≠ 0 := ne_of_gt (pointsCount_cast_pos p1 p2 m)
  have hcast := pointsCount_toNat_cast p1 p2 m
  have hsx : p1.x + (p2.x - p1.x) / ((pointsCount p1 p2 m : ℤ) : ℝ)
        * (t * (((pointsCount p1 p2 m).toNat : ℕ) : ℝ))
      = p1.x + t * (p2.x - p1.x) := by
    rw [hcast]
    field_simp
    ring
  have hsy : p1.y + (p2.y - p1.y) / ((pointsCount p1 p2 m : ℤ) : ℝ)
        * (t * (((pointsCount p1 p2 m).toNat : ℕ) : ℝ))
      = p1.y + t * (p2.y - p1.y) := by
    rw [hcast]
    field_simp
    ring
  have hbx := between_box p1.x ((p2.x - p1.x) / ((pointsCount p1 p2 m : ℤ) : ℝ))
    (t * (((pointsCount p1 p2 m).toNat : ℕ) : ℝ)) (j : ℝ) hj1 hj2
  have hby := between_box p1.y ((p2.y - p1.y) / ((pointsCount p1 p2 m : ℤ) : ℝ))
    (t * (((pointsCount p1 p2 m).toNat : ℕ) : ℝ)) (j : ℝ) hj1 hj2
  rw [hsx] at hbx
  rw [hsy] at hby
  have hdx2 : (q.x - (p1.x + t * (p2.x - p1.x))) ^ 2 ≤ (o / 2) ^ 2 := by
    nlinarith [sq_nonneg (q.y - (p1.y + t * (p2.y - p1.y)))]
  have hdy2 : (q.y - (p1.y + t * (p2.y - p1.y))) ^ 2 ≤ (o / 2) ^ 2 := by
    nlinarith [sq_nonneg (q.x - (p1.x + t * (p2.x - p1.x)))]
  have hX := contains_of_between q.x (p1.x + t * (p2.x - p1.x)) _ _ (o / 2)
    (by linarith) hbx.1 hbx.2 hdx2
  have hY := contains_of_between q.y (p1.y + t * (p2.y - p1.y)) _ _ (o / 2)
    (by linarith) hby.1 hby.2 hdy2
  simp only [QRectF.containsPoint, QRectF.adjusted_left, QRectF.adjusted_top,
    QRectF.adjusted_right, QRectF.adjusted_bottom, QRectF.normalized_left,
    QRectF.normalized_top, QRectF.normalized_right, QRectF.normalized_bottom,
    QRectF.fromPoints_left, QRectF.fromPoints_top, QRectF.fromPoints_right,
    QRectF.fromPoints_bottom, QPointF.add_x, QPointF.add_y, QPointF.mul_x, QPointF.mul_y,
    QPointF.div_x, QPointF.div_y, QPointF.sub_x, QPointF.sub_y]
  push_cast
  exact ⟨hX.1, hX.2, hY.1, hY.2⟩

/-- C6 witness: the point (50,3), within distance 5 of the segment from
(0,0) to (100,0), is covered by one of the rectangles produced with
spacing 40 and overlap 10. -/
theorem rectsOnLine_correct_witness :
    ∃ r ∈ rectsOnLine ⟨0, 0⟩ ⟨100, 0⟩ 40 10, r.containsPoint ⟨50, 3⟩ :=
  (rectsOnLine_correct ⟨0, 0⟩ ⟨100, 0⟩ 40 10 (by norm_num) (by norm_num)).1
    ⟨50, 3⟩ (1 / 2) (by norm_num) (by norm_num) (by norm_num)
